import Mathlib

/-!
Verification of the custom message-tags module (src/3.0/m_customtags.cpp).

Strings are embedded as `List Char`.  The per-user tag store
(`insp::flat_map<std::string, std::string, irc::insensitive_swo>`) and the
special-message table are embedded as association lists kept sorted by the
case-insensitive strict weak order `ciLt`; `insKV` is `flat_map::insert`
(no overwrite on an equivalent key) and `putKV` is `flat_map::operator[]`
followed by assignment (overwrite).

External collaborators (host engine, excluded from the repository) are
modelled from the spec: the space-separated token stream
(`irc::spacesepstream`, spec 4.1: split on spaces into non-empty tokens),
the live user directory (`ServerInstance->FindNickOnly`) as a function
`List Char → Option User`, the capability query (`Cap::Reference::get`)
as a function `User → Bool`, the WHO field-negotiation event
(`Who::Request::GetFieldIndex`) as an `Option Nat`, and configuration
entries as plain records.
-/

namespace CustomTagsMod

/-- ASCII-case-folded code of a character, embedding the case-insensitive
character map used by `irc::insensitive_swo` (letters A-Z fold to a-z). -/
def lowerCode (c : Char) : Nat :=
  if 65 ≤ c.toNat ∧ c.toNat ≤ 90 then c.toNat + 32 else c.toNat

/-- Case-insensitive strict weak order on strings, embedding
`irc::insensitive_swo::operator()`: lexicographic on case-folded
characters, with a strict prefix ordered first. -/
def ciLt : List Char → List Char → Bool
  | _, [] => false
  | [], _ :: _ => true
  | a :: as, b :: bs =>
      if lowerCode a < lowerCode b then true
      else if lowerCode b < lowerCode a then false
      else ciLt as bs

/-- Case-insensitive equivalence on strings: the equivalence induced by the
strict weak order `ciLt`.  This is also `irc::equals`. -/
def ciEq (a b : List Char) : Bool := !ciLt a b && !ciLt b a

/-- Embeds `flat_map::insert` on a sorted association list: place the pair
at its sorted position, or leave the map unchanged when a key equivalent
under `ciLt` is already present (first insertion wins). -/
def insKV {α : Type} : List (List Char × α) → (List Char × α) → List (List Char × α)
  | [], p => [p]
  | (k, v) :: rest, p =>
      if ciLt p.1 k then p :: (k, v) :: rest
      else if ciLt k p.1 then (k, v) :: insKV rest p
      else (k, v) :: rest

/-- Embeds `flat_map::operator[] = value`: place the pair at its sorted
position, overwriting the value when an equivalent key is present. -/
def putKV {α : Type} : List (List Char × α) → (List Char × α) → List (List Char × α)
  | [], p => [p]
  | (k, v) :: rest, p =>
      if ciLt p.1 k then p :: (k, v) :: rest
      else if ciLt k p.1 then (k, v) :: putKV rest p
      else (k, p.2) :: rest

/-- Embeds `flat_map::find` (on the sorted maps maintained by `insKV` and
`putKV` the first equivalent key is the unique one). -/
def lookupKV {α : Type} : List (List Char × α) → List Char → Option α
  | [], _ => none
  | (k, v) :: rest, n => if ciEq k n then some v else lookupKV rest n

/-- Left-biased choice on options, used to state how a lookup in a map
built by repeated insertion relates to the insertion sequence. -/
def orOpt {α : Type} : Option α → Option α → Option α
  | some a, _ => some a
  | none, b => b

/-- Per-user tag store: `CustomTagMap` in the source. -/
abbrev CustomTagMap : Type := List (List Char × List Char)

/-- Special-message table: `SpecialMessageMap` in the source. -/
abbrev SpecialMessageMap : Type := List (List Char × Nat)

/-- Keys are strictly ascending under `ciLt` — the invariant of every
`flat_map`, hence of every tag store and special-message table. -/
def SortedCI {α : Type} (m : List (List Char × α)) : Prop :=
  m.Pairwise (fun p q => ciLt p.1 q.1 = true)

instance {α : Type} (m : List (List Char × α)) : Decidable (SortedCI m) := by
  unfold SortedCI; infer_instance

/-- Modelled from the spec: `irc::spacesepstream` tokenization (spec 4.1 -
the replication payload is split on spaces into a flat sequence of
non-empty tokens).  Accumulator holds the current token reversed. -/
def tokenizeAux : List Char → List Char → List (List Char)
  | [], cur => if cur = [] then [] else [cur.reverse]
  | c :: rest, cur =>
      if c = ' ' then
        if cur = [] then tokenizeAux rest [] else cur.reverse :: tokenizeAux rest []
  else tokenizeAux rest (c :: cur)

/-- Token sequence of a replication payload. -/
def tokenize (s : List Char) : List (List Char) := tokenizeAux s []

/-- Embeds the token-consuming loop of `CustomTagsExtItem::FromNetwork`:
consume tokens two at a time as (name, value) pairs, `insert`ing each into
the accumulated map; fail (`none`) when a name has no matching value. -/
def decodeTokens : List (List Char) → CustomTagMap → Option CustomTagMap
  | [], list => some list
  | [_], _ => none
  | n :: v :: rest, list => decodeTokens rest (insKV list (n, v))

/-- Pure decode result of `CustomTagsExtItem::FromNetwork`: `none` is the
malformed-payload failure, `some list` the fully decoded map. -/
def FromNetworkPure (value : List Char) : Option CustomTagMap :=
  decodeTokens (tokenize value) []

/-- Embeds `CustomTagsExtItem::FromNetwork` as a transformer of the user's
extension state (`none` = no store attached): on a malformed payload the
prior state is kept; on success a non-empty map is `set` and an empty map
means `unset`. -/
def FromNetwork (value : List Char) (prior : Option CustomTagMap) : Option CustomTagMap :=
  match FromNetworkPure value with
  | none => prior
  | some list => if list.isEmpty then none else some list

/-- Embeds `CustomTagsExtItem::ToNetwork`: pairs rendered `name SP value`,
joined by single spaces, no trailing delimiter. -/
def ToNetwork : CustomTagMap → List Char
  | [] => []
  | [p] => p.1 ++ (' ' :: p.2)
  | p :: rest => p.1 ++ (' ' :: (p.2 ++ (' ' :: ToNetwork rest)))

/-- Group a token sequence into consecutive (name, value) pairs; a
trailing unmatched token is dropped (it is the malformed case). -/
def toPairs : List (List Char) → List (List Char × List Char)
  | n :: v :: rest => (n, v) :: toPairs rest
  | _ => []

/-- Flatten (name, value) pairs back into a token sequence. -/
def flatPairs : CustomTagMap → List (List Char)
  | [] => []
  | p :: rest => p.1 :: p.2 :: flatPairs rest

/-- The map obtained by `flat_map::insert`ing a sequence of pairs in order
into an empty map, as the decode loop does. -/
def buildStore (ps : List (List Char × List Char)) : CustomTagMap :=
  List.foldl insKV [] ps

/-- A connected client or server entity; `server = true` embeds
`IS_SERVER(user)`. -/
structure User where
  nick : List Char
  server : Bool
deriving DecidableEq

/-- An outgoing protocol message: `ClientProtocol::Message` restricted to
the accessors the module uses (`GetCommand`, `GetParams`,
`GetSourceUser`). -/
structure Message where
  command : List Char
  params : List (List Char)
  sourceUser : Option User

/-- State of the `CustomTags` tag provider: the special-message table, the
vendor namespace and the last observed WHOX nick-field index
(`whox_index`, `-1` when absent; the constructor initialises it to `-1`). -/
structure CustomTags where
  specialmsgs : SpecialMessageMap
  vendor : List Char
  whox_index : Int

/-- Effective parameter position of the subject nick, embedding the first
half of `CustomTags::UserFromMsg` (lines 99-111): table lookup, with the
WHOX command "354" substituting `whox_index + 1` or bailing out when no
nick field was negotiated (`whox_index == -1`). -/
def effectiveIndex (ct : CustomTags) (command : List Char) : Option Nat :=
  match lookupKV ct.specialmsgs command with
  | none => none
  | some idx =>
      if ciEq command ['3', '5', '4'] then
        if ct.whox_index = -1 then none else some (ct.whox_index + 1).toNat
      else some idx

/-- Embeds `CustomTags::UserFromMsg`; the live user directory
`ServerInstance->FindNickOnly` is an external collaborator passed as the
function `findNickOnly`. -/
def UserFromMsg (ct : CustomTags) (findNickOnly : List Char → Option User)
    (msg : Message) : Option User :=
  match effectiveIndex ct msg.command with
  | none => none
  | some nick_index =>
      if msg.params.length ≤ nick_index then none
      else findNickOnly (msg.params.getD nick_index [])

/-- Subject resolution of `CustomTags::OnPopulateTags` (lines 134-140):
a non-server source user is used directly, otherwise `UserFromMsg`. -/
def resolveSubject (ct : CustomTags) (findNickOnly : List Char → Option User)
    (msg : Message) : Option User :=
  match msg.sourceUser with
  | none => UserFromMsg ct findNickOnly msg
  | some u => if u.server then UserFromMsg ct findNickOnly msg else some u

/-- Embeds `CustomTags::OnPopulateTags`: the returned list is the sequence
of `msg.AddTag(vendor + "/" + name, this, value)` calls, in order.  The
extension storage `ext.get` is the external extensible-attribute
framework, passed as the function `ext`. -/
def OnPopulateTags (ct : CustomTags) (findNickOnly : List Char → Option User)
    (ext : User → Option CustomTagMap) (msg : Message) : List (List Char × List Char) :=
  match resolveSubject ct findNickOnly msg with
  | none => []
  | some user =>
      match ext user with
      | none => []
      | some tags => tags.map (fun p => (ct.vendor ++ '/' :: p.1, p.2))

/-- Embeds `CustomTags::ShouldSendTag`: returns the connection's
message-tags capability state (`ctctagcap.get(user)`), the capability
subsystem being the external function `capGet`. -/
def ShouldSendTag (capGet : User → Bool) (user : User) : Bool := capGet user

/-- Modelled from the spec: the host protocol engine consults a tag
provider only for the tags it owns (spec 4.5 folds this ownership
dispatch into `shouldSend(connection, tagOwner)`), so the recipient
filter is the ownership identity check conjoined with
`ShouldSendTag`. -/
def shouldSend (tagOwnerIsSelf : Bool) (capGet : User → Bool) (user : User) : Bool :=
  tagOwnerIsSelf && ShouldSendTag capGet user

/-- Embeds `ModuleCustomTags::OnWhoLine`: `fieldIndexOfN` is the result of
the external `request.GetFieldIndex('n', nick_index)` (`some i` when the
exchange negotiated a nick field at index `i`), and `whox_index` is set
to that index or to `-1`. -/
def OnWhoLine (fieldIndexOfN : Option Nat) (ct : CustomTags) : CustomTags :=
  { ct with whox_index := match fieldIndexOfN with | some i => (i : Int) | none => -1 }

/-- The `whox_index` value set by the `CustomTags` constructor, before any
WHO exchange has been observed. -/
def initialWhoxIndex : Int := -1

/-- Modelled from the spec: one `<specialmsg>` configuration entry with
its `command` string and `index` value as read by the external
`ConfigTag` collaborator. -/
structure ConfigEntry where
  command : List Char
  index : Nat
deriving DecidableEq

/-- Modelled from the spec: the range clamp of
`tag->getUInt("index", 0, 0, 20)` — out-of-range values fall back to the
default `0`. -/
def clampIndex (n : Nat) : Nat := if n ≤ 20 then n else 0

/-- The table-building loop of `ModuleCustomTags::ReadConfig` (lines
179-190) over a local map: `none` embeds the thrown `ModuleException` on
an entry whose `command` is empty. -/
def buildSpecialMsgs : List ConfigEntry → SpecialMessageMap → Option SpecialMessageMap
  | [], acc => some acc
  | e :: rest, acc =>
      if e.command = [] then none
      else buildSpecialMsgs rest (putKV acc (e.command, clampIndex e.index))

/-- Embeds `ModuleCustomTags::ReadConfig` as a transformer of the provider
state: the new table is built off to the side and swapped in, then the
vendor string is installed; a thrown exception leaves the previous state
active.  `vendorNew` is the already-resolved result of the external
`tag->getString("vendor", ServerName, 1)`. -/
def ReadConfig (entries : List ConfigEntry) (vendorNew : List Char)
    (ct : CustomTags) : CustomTags :=
  match buildSpecialMsgs entries [] with
  | none => ct
  | some tbl => { ct with specialmsgs := tbl, vendor := vendorNew }

/-! Concrete scenario data used by the claim instances below. -/

/-- The nickname `Alice`. -/
def aliceNick : List Char := ['A', 'l', 'i', 'c', 'e']

/-- The nickname `Bob`. -/
def bobNick : List Char := ['B', 'o', 'b']

/-- The connected (non-server) user named `Bob`. -/
def bobUser : User := ⟨bobNick, false⟩

/-- The server entity as a message source (`IS_SERVER` holds). -/
def serverUser : User := ⟨['s', 'e', 'r', 'v'], true⟩

/-- A live user directory in which exactly `Bob` is connected. -/
def nickDir : List Char → Option User :=
  fun n => if n = bobNick then some bobUser else none

/-- The numeric command `321`. -/
def cmd321 : List Char := ['3', '2', '1']

/-- Provider state with `commandIndex["321"] = 1`, vendor `acme` and no
observed WHOX nick field. -/
def ct321 : CustomTags :=
  ⟨[(cmd321, 1)], ['a', 'c', 'm', 'e'], -1⟩

/-- A `321` message with params `["Alice", "Bob", "extra"]` and no source
user. -/
def c5msg : Message :=
  ⟨cmd321, [aliceNick, bobNick, ['e', 'x', 't', 'r', 'a']], none⟩

/-- A server-sourced `321` message with params `["Alice", "Bob"]`. -/
def c8msg : Message := ⟨cmd321, [aliceNick, bobNick], some serverUser⟩

/-- Bob's tag store `{"level": "5", "clan": "red"}`, built by inserting the
two entries into an empty `flat_map`. -/
def bobStore : CustomTagMap :=
  buildStore [(['l', 'e', 'v', 'e', 'l'], ['5']), (['c', 'l', 'a', 'n'], ['r', 'e', 'd'])]

/-- Extension storage in which exactly `Bob` has a store, namely
`bobStore`. -/
def extBob : User → Option CustomTagMap :=
  fun u => if u = bobUser then some bobStore else none

/-- A store with the single entry `a = b`, standing for arbitrary prior
tag state. -/
def priorStore : CustomTagMap := [(['a'], ['b'])]

/-- The singleton store whose one entry has name `a` and the empty value. -/
def c1Store : CustomTagMap := [(['a'], [])]

/-- The malformed three-token payload `foo bar baz`. -/
def oddPayload : List Char :=
  ['f', 'o', 'o', ' ', 'b', 'a', 'r', ' ', 'b', 'a', 'z']

/-- The payload `Foo 1 foo 2`, whose two names coincide up to ASCII case. -/
def dupPayload : List Char :=
  ['F', 'o', 'o', ' ', '1', ' ', 'f', 'o', 'o', ' ', '2']

/-- The singleton store with entry `a = 1`, a round-trip example. -/
def c1wStore : CustomTagMap := [(['a'], ['1'])]

/-- A `321` message genuinely sent by `Bob`. -/
def c4msg : Message := ⟨cmd321, [aliceNick, bobNick], some bobUser⟩

/-- A `321` message with a single parameter, shorter than the configured
position requires. -/
def c5shortMsg : Message := ⟨cmd321, [aliceNick], none⟩

/-- The dynamic-family (WHOX) command `354`. -/
def cmd354 : List Char := ['3', '5', '4']

/-- Provider state for `354` after an observation recorded nick-field
position `2`. -/
def ct354A : CustomTags := ⟨[(cmd354, 0)], ['a', 'c', 'm', 'e'], 2⟩

/-- Provider state for `354` with no observed nick field. -/
def ct354B : CustomTags := ⟨[(cmd354, 0)], ['a', 'c', 'm', 'e'], -1⟩

/-- A `354` reply whose parameter at position `3` is `Bob`'s nick. -/
def c6msg : Message := ⟨cmd354, [['1'], ['2'], ['3'], bobNick], none⟩

/-- A well-formed `<specialmsg>` entry for command `321` at position 1. -/
def goodEntry : ConfigEntry := ⟨cmd321, 1⟩

/-- A `<specialmsg>` entry whose required `command` field is empty. -/
def badEntry : ConfigEntry := ⟨[], 0⟩

/-! Basic facts about the case-insensitive order `ciLt` and its induced
equivalence `ciEq`. -/

theorem ciLt_asymm : ∀ a b, ciLt a b = true → ciLt b a = false := by
  intro a
  induction a with
  | nil =>
      intro b h
      cases b with
      | nil => simp [ciLt] at h
      | cons c cs => rfl
  | cons x xs ih =>
      intro b h
      cases b with
      | nil => simp [ciLt] at h
      | cons y ys =>
          simp only [ciLt] at h ⊢
          by_cases h1 : lowerCode x < lowerCode y
          · have h2 : ¬ lowerCode y < lowerCode x := by omega
            simp [h1, h2]
          · by_cases h2 : lowerCode y < lowerCode x
            · simp [h1, h2] at h
            · rw [if_neg h1, if_neg h2] at h
              rw [if_neg h2, if_neg h1]
              exact ih ys h

theorem ciLt_trans : ∀ a b c, ciLt a b = true → ciLt b c = true → ciLt a c = true := by
  intro a
  induction a with
  | nil =>
      intro b c hab hbc
      cases c with
      | nil =>
          cases b with
          | nil => simpa using hbc
          | cons y ys => simp [ciLt] at hbc
      | cons z zs => rfl
  | cons x xs ih =>
      intro b c hab hbc
      cases b with
      | nil => simp [ciLt] at hab
      | cons y ys =>
          cases c with
          | nil => simp [ciLt] at hbc
          | cons z zs =>
              simp only [ciLt] at hab hbc ⊢
              by_cases h1 : lowerCode x < lowerCode y
              · by_cases h2 : lowerCode y < lowerCode z
                · have h3 : lowerCode x < lowerCode z := by omega
                  simp [h3]
                · by_cases h3 : lowerCode z < lowerCode y
                  · simp [h2, h3] at hbc
                  · have h4 : lowerCode x < lowerCode z := by omega
                    simp [h4]
              · by_cases h4 : lowerCode y < lowerCode x
                · simp [h1, h4] at hab
                · by_cases h2 : lowerCode y < lowerCode z
                  · have h5 : lowerCode x < lowerCode z := by omega
                    simp [h5]
                  · by_cases h3 : lowerCode z < lowerCode y
                    · simp [h2, h3] at hbc
                    · rw [if_neg h1, if_neg h4] at hab
                      rw [if_neg h2, if_neg h3] at hbc
                      have e1 : ¬ lowerCode x < lowerCode z := by omega
                      have e2 : ¬ lowerCode z < lowerCode x := by omega
                      rw [if_neg e1, if_neg e2]
                      exact ih ys zs hab hbc

theorem ciEq_iff : ∀ a b, ciEq a b = true ↔ a.map lowerCode = b.map lowerCode := by
  intro a
  induction a with
  | nil =>
      intro b
      cases b with
      | nil => simp [ciEq, ciLt]
      | cons y ys => simp [ciEq, ciLt]
  | cons x xs ih =>
      intro b
      cases b with
      | nil => simp [ciEq, ciLt]
      | cons y ys =>
          simp only [ciEq, ciLt, List.map_cons, List.cons.injEq]
          by_cases h1 : lowerCode x < lowerCode y
          · have hne : ¬ lowerCode x = lowerCode y := by omega
            simp [h1, hne]
          · by_cases h2 : lowerCode y < lowerCode x
            · have hne : ¬ lowerCode x = lowerCode y := by omega
              simp [h1, h2, hne]
            · have heq : lowerCode x = lowerCode y := by omega
              have hih := ih ys
              simp only [ciEq] at hih
              simp [h1, h2, heq, hih]

theorem ciEq_symm {a b : List Char} (h : ciEq a b = true) : ciEq b a = true :=
  (ciEq_iff b a).mpr ((ciEq_iff a b).mp h).symm

theorem ciEq_trans {a b c : List Char} (hab : ciEq a b = true) (hbc : ciEq b c = true) :
    ciEq a c = true :=
  (ciEq_iff a c).mpr (((ciEq_iff a b).mp hab).trans ((ciEq_iff b c).mp hbc))

theorem ciEq_of_not_lt {a b : List Char} (h1 : ciLt a b = false) (h2 : ciLt b a = false) :
    ciEq a b = true := by
  simp [ciEq, h1, h2]

theorem ciLt_false_of_ciEq {a b : List Char} (h : ciEq a b = true) :
    ciLt a b = false ∧ ciLt b a = false := by
  simp only [ciEq, Bool.and_eq_true, Bool.not_eq_true'] at h
  exact h

theorem ciLt_congr_right : ∀ a b c, b.map lowerCode = c.map lowerCode → ciLt a b = ciLt a c := by
  intro a
  induction a with
  | nil =>
      intro b c h
      cases b <;> cases c <;> simp_all [ciLt]
  | cons x xs ih =>
      intro b c h
      cases b with
      | nil =>
          cases c with
          | nil => rfl
          | cons z zs => simp at h
      | cons y ys =>
          cases c with
          | nil => simp at h
          | cons z zs =>
              simp only [List.map_cons, List.cons.injEq] at h
              obtain ⟨h1, h2⟩ := h
              simp only [ciLt, h1, ih ys zs h2]

/-- Lookup keys only matter up to case-insensitive equivalence. -/
theorem lookupKV_congr {α : Type} :
    ∀ (m : List (List Char × α)) (a b : List Char), ciEq a b = true →
      lookupKV m a = lookupKV m b := by
  intro m a b hab
  induction m with
  | nil => rfl
  | cons e rest ih =>
      obtain ⟨k, v⟩ := e
      have hk : ciEq k a = ciEq k b := by
        have hmap := (ciEq_iff a b).mp hab
        by_cases h1 : ciEq k a = true
        · have h2 : ciEq k b = true := (ciEq_iff k b).mpr (((ciEq_iff k a).mp h1).trans hmap)
          rw [h1, h2]
        · have h2 : ¬ ciEq k b = true := by
            intro h2
            exact h1 ((ciEq_iff k a).mpr (((ciEq_iff k b).mp h2).trans hmap.symm))
          simp only [Bool.not_eq_true] at h1 h2
          rw [h1, h2]
      simp only [lookupKV, hk, ih]

/-! Facts about `flat_map` insertion and lookup. -/

theorem mem_insKV {α : Type} :
    ∀ (m : List (List Char × α)) (p q : List Char × α), q ∈ insKV m p → q = p ∨ q ∈ m := by
  intro m p
  induction m with
  | nil =>
      intro q h
      simp only [insKV, List.mem_singleton] at h
      exact Or.inl h
  | cons e rest ih =>
      intro q h
      obtain ⟨k, v⟩ := e
      simp only [insKV] at h
      by_cases h1 : ciLt p.1 k = true
      · rw [if_pos h1] at h
        rcases List.mem_cons.mp h with h | h
        · exact Or.inl h
        · exact Or.inr h
      · rw [if_neg (by simpa using h1)] at h
        by_cases h2 : ciLt k p.1 = true
        · rw [if_pos h2] at h
          rcases List.mem_cons.mp h with h | h
          · exact Or.inr (by simp [h])
          · rcases ih q h with h' | h'
            · exact Or.inl h'
            · exact Or.inr (List.mem_cons_of_mem _ h')
        · rw [if_neg (by simpa using h2)] at h
          exact Or.inr h

theorem insKV_sorted {α : Type} :
    ∀ (m : List (List Char × α)) (p : List Char × α), SortedCI m → SortedCI (insKV m p) := by
  intro m p
  induction m with
  | nil =>
      intro _
      simp [insKV, SortedCI]
  | cons e rest ih =>
      intro hs
      obtain ⟨k, v⟩ := e
      rw [SortedCI, List.pairwise_cons] at hs
      obtain ⟨hk, hrest⟩ := hs
      simp only [insKV]
      by_cases h1 : ciLt p.1 k = true
      · rw [if_pos h1]
        rw [SortedCI, List.pairwise_cons]
        refine ⟨?_, ?_⟩
        · intro q hq
          rcases List.mem_cons.mp hq with h | h
          · rw [h]; exact h1
          · exact ciLt_trans _ _ _ h1 (hk q h)
        · rw [List.pairwise_cons]
          exact ⟨hk, hrest⟩
      · rw [if_neg (by simpa using h1)]
        by_cases h2 : ciLt k p.1 = true
        · rw [if_pos h2]
          rw [SortedCI, List.pairwise_cons]
          refine ⟨?_, ih hrest⟩
          intro q hq
          rcases mem_insKV rest p q hq with h | h
          · rw [h]; exact h2
          · exact hk q h
        · rw [if_neg (by simpa using h2)]
          rw [SortedCI, List.pairwise_cons]
          exact ⟨hk, hrest⟩

theorem insKV_append {α : Type} :
    ∀ (m : List (List Char × α)) (p : List Char × α),
      (∀ q ∈ m, ciLt q.1 p.1 = true) → insKV m p = m ++ [p] := by
  intro m p
  induction m with
  | nil => intro _; rfl
  | cons e rest ih =>
      intro h
      obtain ⟨k, v⟩ := e
      have hk : ciLt k p.1 = true := h (k, v) (List.mem_cons_self _ _)
      have hk' : ciLt p.1 k = false := ciLt_asymm _ _ hk
      simp only [insKV]
      rw [if_neg (by simp [hk']), if_pos hk]
      rw [ih (fun q hq => h q (List.mem_cons_of_mem _ hq))]
      simp

theorem foldl_insKV_append {α : Type} :
    ∀ (s m : List (List Char × α)), SortedCI (m ++ s) → List.foldl insKV m s = m ++ s := by
  intro s
  induction s with
  | nil => intro m _; simp
  | cons p s' ih =>
      intro m h
      have hlt : ∀ q ∈ m, ciLt q.1 p.1 = true := by
        rw [SortedCI, List.pairwise_append] at h
        exact fun q hq => h.2.2 q hq p (List.mem_cons_self _ _)
      have h1 : insKV m p = m ++ [p] := insKV_append m p hlt
      have h2 : SortedCI ((m ++ [p]) ++ s') := by
        rw [List.append_assoc]
        simpa using h
      rw [List.foldl_cons, h1, ih (m ++ [p]) h2, List.append_assoc]
      simp

/-- A store that already satisfies the `flat_map` invariant is rebuilt
identically by inserting its entries in order. -/
theorem buildStore_of_sorted (s : CustomTagMap) (hs : SortedCI s) : buildStore s = s := by
  unfold buildStore
  have := foldl_insKV_append s ([] : CustomTagMap) (by simpa using hs)
  simpa using this

theorem foldl_insKV_sorted {α : Type} :
    ∀ (ps : List (List Char × α)) (acc : List (List Char × α)),
      SortedCI acc → SortedCI (List.foldl insKV acc ps) := by
  intro ps
  induction ps with
  | nil => intro acc h; simpa using h
  | cons p ps' ih =>
      intro acc h
      rw [List.foldl_cons]
      exact ih (insKV acc p) (insKV_sorted acc p h)

theorem lookupKV_mem {α : Type} :
    ∀ (m : List (List Char × α)) (n : List Char) (v : α), lookupKV m n = some v →
      ∃ k, (k, v) ∈ m ∧ ciEq k n = true := by
  intro m n v
  induction m with
  | nil => intro h; simp [lookupKV] at h
  | cons e rest ih =>
      intro h
      obtain ⟨k, w⟩ := e
      simp only [lookupKV] at h
      by_cases hk : ciEq k n = true
      · rw [if_pos hk] at h
        exact ⟨k, by simp [← Option.some_inj.mp h], hk⟩
      · rw [if_neg (by simpa using hk)] at h
        obtain ⟨k', hmem, hk'⟩ := ih h
        exact ⟨k', List.mem_cons_of_mem _ hmem, hk'⟩

theorem lookupKV_insKV_of_ne {α : Type} :
    ∀ (m : List (List Char × α)) (p : List Char × α) (n : List Char), ciEq p.1 n = false →
      lookupKV (insKV m p) n = lookupKV m n := by
  intro m p n hne
  induction m with
  | nil => simp [insKV, lookupKV, hne]
  | cons e rest ih =>
      obtain ⟨k, v⟩ := e
      simp only [insKV]
      by_cases h1 : ciLt p.1 k = true
      · rw [if_pos h1]
        simp [lookupKV, hne]
      · rw [if_neg (by simpa using h1)]
        by_cases h2 : ciLt k p.1 = true
        · rw [if_pos h2]
          simp only [lookupKV, ih]
        · rw [if_neg (by simpa using h2)]

theorem insKV_of_lookup_isSome {α : Type} :
    ∀ (m : List (List Char × α)) (p : List Char × α),
      SortedCI m → lookupKV m p.1 ≠ none → insKV m p = m := by
  intro m p
  induction m with
  | nil => intro _ h; simp [lookupKV] at h
  | cons e rest ih =>
      intro hs h
      obtain ⟨k, v⟩ := e
      rw [SortedCI, List.pairwise_cons] at hs
      obtain ⟨hk, hrest⟩ := hs
      by_cases hek : ciEq k p.1 = true
      · obtain ⟨c1, c2⟩ := ciLt_false_of_ciEq hek
        simp only [insKV]
        rw [if_neg (by simp [c2]), if_neg (by simp [c1])]
      · have hek' : ciEq k p.1 = false := by simpa using hek
        have hlrest : lookupKV rest p.1 ≠ none := by
          simpa [lookupKV, hek'] using h
        obtain ⟨v', hv⟩ := Option.ne_none_iff_exists'.mp hlrest
        obtain ⟨k', hmem, hk'⟩ := lookupKV_mem rest p.1 v' hv
        have hlt : ciLt k p.1 = true := by
          have h1 : ciLt k k' = true := hk (k', v') hmem
          rwa [ciLt_congr_right k k' p.1 ((ciEq_iff k' p.1).mp hk')] at h1
        have hlt2 : ciLt p.1 k = false := ciLt_asymm _ _ hlt
        simp only [insKV]
        rw [if_neg (by simp [hlt2]), if_pos hlt, ih hrest hlrest]

theorem lookupKV_insKV_self {α : Type} :
    ∀ (m : List (List Char × α)) (p : List Char × α) (n : List Char),
      ciEq p.1 n = true → lookupKV m p.1 = none →
      lookupKV (insKV m p) n = some p.2 := by
  intro m p n hpn
  induction m with
  | nil => intro _; simp [insKV, lookupKV, hpn]
  | cons e rest ih =>
      intro hnone
      obtain ⟨k, v⟩ := e
      simp only [lookupKV] at hnone
      by_cases hek : ciEq k p.1 = true
      · rw [if_pos hek] at hnone
        exact absurd hnone (by simp)
      · have hek' : ciEq k p.1 = false := by simpa using hek
        rw [if_neg (by simpa using hek)] at hnone
        have hkn : ciEq k n = false := by
          by_cases hx : ciEq k n = true
          · exact absurd ((ciEq_trans hx (ciEq_symm hpn))) (by simp [hek'])
          · simpa using hx
        simp only [insKV]
        by_cases h1 : ciLt p.1 k = true
        · rw [if_pos h1]
          simp [lookupKV, hpn]
        · rw [if_neg (by simpa using h1)]
          by_cases h2 : ciLt k p.1 = true
          · rw [if_pos h2]
            simp only [lookupKV, hkn]
            rw [if_neg (by simp), ih hnone]
          · exact absurd (ciEq_of_not_lt (by simpa using h2) (by simpa using h1)) (by simp [hek'])

theorem orOpt_none {α : Type} (o : Option α) : orOpt o none = o := by
  cases o <;> rfl

/-- Lookup in a map built by repeated `flat_map::insert` over a sorted
accumulator: the accumulator wins, then the first matching pair of the
insertion sequence. -/
theorem lookupKV_foldl_insKV {α : Type} :
    ∀ (ps : List (List Char × α)) (acc : List (List Char × α)) (n : List Char), SortedCI acc →
      lookupKV (List.foldl insKV acc ps) n =
        orOpt (lookupKV acc n) ((ps.find? (fun p => ciEq p.1 n)).map Prod.snd) := by
  intro ps
  induction ps with
  | nil =>
      intro acc n _
      simp [orOpt_none]
  | cons p ps' ih =>
      intro acc n hacc
      rw [List.foldl_cons]
      rw [ih (insKV acc p) n (insKV_sorted acc p hacc)]
      by_cases hpn : ciEq p.1 n = true
      · rw [List.find?_cons_of_pos _ (by simpa using hpn)]
        cases hl : lookupKV acc p.1 with
        | none =>
            rw [lookupKV_insKV_self acc p n hpn hl]
            have hn : lookupKV acc n = none := by
              rw [← lookupKV_congr acc p.1 n hpn]
              exact hl
            simp [orOpt, hn]
        | some w =>
            rw [insKV_of_lookup_isSome acc p hacc (by simp [hl])]
            have hn : lookupKV acc n = some w := by
              rw [← lookupKV_congr acc p.1 n hpn]
              exact hl
            simp [orOpt, hn]
      · have hpn' : ciEq p.1 n = false := by simpa using hpn
        rw [List.find?_cons_of_neg _ (by simp [hpn'])]
        rw [lookupKV_insKV_of_ne acc p n hpn']

/-! Facts about tokenization and the wire codec. -/

theorem tokenizeAux_append :
    ∀ (t : List Char), ' ' ∉ t → ∀ (cur r : List Char),
      tokenizeAux (t ++ r) cur = tokenizeAux r (t.reverse ++ cur) := by
  intro t
  induction t with
  | nil => intro _ cur r; simp
  | cons c t' ih =>
      intro h cur r
      have hc : ¬ c = ' ' := fun hc => h (by simp [hc])
      have ht' : ' ' ∉ t' := fun hm => h (List.mem_cons_of_mem _ hm)
      show tokenizeAux (c :: (t' ++ r)) cur = tokenizeAux r ((c :: t').reverse ++ cur)
      rw [show tokenizeAux (c :: (t' ++ r)) cur = tokenizeAux (t' ++ r) (c :: cur) by
        simp only [tokenizeAux]; rw [if_neg hc]]
      rw [ih ht' (c :: cur) r]
      simp

theorem tokenizeAux_space (r cur : List Char) (h : ¬ cur = []) :
    tokenizeAux (' ' :: r) cur = cur.reverse :: tokenizeAux r [] := by
  show (if ' ' = ' ' then
          if cur = [] then tokenizeAux r [] else cur.reverse :: tokenizeAux r []
        else tokenizeAux r (' ' :: cur)) = cur.reverse :: tokenizeAux r []
  rw [if_pos rfl, if_neg h]

theorem tokenizeAux_single (t : List Char) (h : ' ' ∉ t) (hne : t ≠ []) :
    tokenizeAux t [] = [t] := by
  have e := tokenizeAux_append t h [] []
  simp only [List.append_nil] at e
  rw [e]
  show (if t.reverse = [] then [] else [t.reverse.reverse]) = [t]
  rw [if_neg (by simp [hne])]
  simp

theorem tokenize_toNetwork :
    ∀ (s : CustomTagMap), (∀ p ∈ s, p.1 ≠ [] ∧ p.2 ≠ [] ∧ ' ' ∉ p.1 ∧ ' ' ∉ p.2) →
      tokenize (ToNetwork s) = flatPairs s
  | [], _ => rfl
  | [p], h => by
      obtain ⟨h1, h2, h3, h4⟩ := h p (by simp)
      show tokenizeAux (p.1 ++ (' ' :: p.2)) [] = [p.1, p.2]
      rw [tokenizeAux_append p.1 h3 [] (' ' :: p.2)]
      rw [tokenizeAux_space p.2 (p.1.reverse ++ []) (by simp [h1])]
      rw [tokenizeAux_single p.2 h4 h2]
      simp
  | p :: q :: rest, h => by
      obtain ⟨h1, h2, h3, h4⟩ := h p (by simp)
      have hrest : ∀ x ∈ q :: rest, x.1 ≠ [] ∧ x.2 ≠ [] ∧ ' ' ∉ x.1 ∧ ' ' ∉ x.2 :=
        fun x hx => h x (List.mem_cons_of_mem _ hx)
      have ih := tokenize_toNetwork (q :: rest) hrest
      show tokenizeAux (p.1 ++ (' ' :: (p.2 ++ (' ' :: ToNetwork (q :: rest))))) []
          = p.1 :: p.2 :: flatPairs (q :: rest)
      rw [tokenizeAux_append p.1 h3 [] (' ' :: (p.2 ++ (' ' :: ToNetwork (q :: rest))))]
      rw [tokenizeAux_space _ (p.1.reverse ++ []) (by simp [h1])]
      rw [tokenizeAux_append p.2 h4 [] (' ' :: ToNetwork (q :: rest))]
      rw [tokenizeAux_space _ (p.2.reverse ++ []) (by simp [h2])]
      rw [show tokenizeAux (ToNetwork (q :: rest)) [] = tokenize (ToNetwork (q :: rest)) from rfl]
      rw [ih]
      simp

theorem decodeTokens_flatPairs :
    ∀ (s : CustomTagMap) (acc : CustomTagMap),
      decodeTokens (flatPairs s) acc = some (List.foldl insKV acc s)
  | [], _ => rfl
  | p :: rest, acc => by
      simp only [flatPairs, decodeTokens, List.foldl_cons]
      exact decodeTokens_flatPairs rest (insKV acc (p.1, p.2))

theorem decodeTokens_even :
    ∀ (tks : List (List Char)) (acc : CustomTagMap), tks.length % 2 = 0 →
      decodeTokens tks acc = some (List.foldl insKV acc (toPairs tks))
  | [], _, _ => rfl
  | [_], _, h => by simp at h
  | n :: v :: rest, acc, h => by
      have h' : rest.length % 2 = 0 := by
        simp only [List.length_cons] at h
        omega
      simp only [decodeTokens, toPairs, List.foldl_cons]
      exact decodeTokens_even rest (insKV acc (n, v)) h'

theorem decodeTokens_odd :
    ∀ (tks : List (List Char)) (acc : CustomTagMap), tks.length % 2 = 1 →
      decodeTokens tks acc = none
  | [], _, h => by simp at h
  | [_], _, _ => rfl
  | n :: v :: rest, acc, h => by
      have h' : rest.length % 2 = 1 := by
        simp only [List.length_cons] at h
        omega
      simp only [decodeTokens]
      exact decodeTokens_odd rest (insKV acc (n, v)) h'


theorem buildSpecialMsgs_none :
    ∀ (entries : List ConfigEntry) (acc : SpecialMessageMap) (e : ConfigEntry),
      e ∈ entries → e.command = [] → buildSpecialMsgs entries acc = none := by
  intro entries
  induction entries with
  | nil => intro acc e h _; simp at h
  | cons x rest ih =>
      intro acc e hmem hcmd
      rcases List.mem_cons.mp hmem with h | h
      · simp [buildSpecialMsgs, ← h, hcmd]
      · simp only [buildSpecialMsgs]
        by_cases hx : x.command = []
        · rw [if_pos hx]
        · rw [if_neg hx]
          exact ih _ e h hcmd

/-! The claims. -/

/-- C1 counterexample: the singleton store whose entry is `a` with the
empty value has whitespace-free names and values, yet decoding its
encoding is a malformed-payload failure (the encoded form `a ` yields a
single token), not the original store. -/
theorem c1_counterexample :
    SortedCI c1Store ∧ c1Store ≠ [] ∧
    ' ' ∉ (['a'] : List Char) ∧ ' ' ∉ ([] : List Char) ∧
    FromNetwork (ToNetwork c1Store) none ≠ some c1Store :=
  ⟨by decide, by decide, by decide, by decide, by decide⟩

/-- C1 (amended): for every store satisfying the `flat_map` invariant with
at least one entry, whose names and values are non-empty and contain no
whitespace, decoding the encoded wire form yields exactly the original
store (identical entries in identical order), whatever tag state was
previously attached. -/
theorem c1_roundtrip (s : CustomTagMap) (prior : Option CustomTagMap)
    (hs : SortedCI s) (hne : s ≠ [])
    (h : ∀ p ∈ s, p.1 ≠ [] ∧ p.2 ≠ [] ∧ ' ' ∉ p.1 ∧ ' ' ∉ p.2) :
    FromNetwork (ToNetwork s) prior = some s := by
  have hdec : FromNetworkPure (ToNetwork s) = some s := by
    unfold FromNetworkPure
    rw [tokenize_toNetwork s h, decodeTokens_flatPairs s [], ← buildStore]
    rw [buildStore_of_sorted s hs]
  unfold FromNetwork
  rw [hdec]
  simp [hne]

theorem c1_roundtrip_witness :
    SortedCI c1wStore ∧ c1wStore ≠ [] ∧
    FromNetwork (ToNetwork c1wStore) none = some c1wStore :=
  ⟨by decide, by decide, c1_roundtrip c1wStore none (by decide) (by decide) (by decide)⟩

/-- C2: decoding a replication payload with an odd number of
space-separated tokens leaves the user's prior tag state exactly as it
was — in particular it creates no store when none existed. -/
theorem c2_malformed (value : List Char) (prior : Option CustomTagMap)
    (h : (tokenize value).length % 2 = 1) :
    FromNetwork value prior = prior := by
  unfold FromNetwork FromNetworkPure
  rw [decodeTokens_odd (tokenize value) [] h]

theorem c2_malformed_witness :
    (tokenize oddPayload).length % 2 = 1 ∧
    FromNetwork oddPayload (some priorStore) = some priorStore ∧
    FromNetwork oddPayload none = none :=
  ⟨by decide, c2_malformed oddPayload (some priorStore) (by decide),
    c2_malformed oddPayload none (by decide)⟩

/-- C3: after a successful decode the user's store is the decoded map when
it is non-empty and absent when the decode yielded zero pairs; in no case
is a store with zero entries installed. -/
theorem c3_empty (value : List Char) (prior : Option CustomTagMap) (l : CustomTagMap)
    (h : FromNetworkPure value = some l) :
    FromNetwork value prior = (if l.isEmpty then none else some l) ∧
    FromNetwork value prior ≠ some [] := by
  have hres : FromNetwork value prior = (if l.isEmpty then none else some l) := by
    unfold FromNetwork
    rw [h]
  refine ⟨hres, ?_⟩
  rw [hres]
  by_cases hl : l.isEmpty
  · simp [hl]
  · rw [if_neg hl]
    intro hc
    exact hl (by simp [Option.some_inj.mp hc])

theorem c3_empty_witness :
    FromNetworkPure [] = some [] ∧
    FromNetwork [] (some priorStore) = none ∧
    FromNetwork [] (some priorStore) ≠ some [] := by
  have h := c3_empty [] (some priorStore) [] (by decide)
  exact ⟨by decide, by simpa using h.1, h.2⟩

/-- C4: a message whose declared source is a connected non-server user
resolves to that source user, for every provider state, user directory
and message — the special-message table and the parameters play no
part. -/
theorem c4_precedence (ct : CustomTags) (f : List Char → Option User) (msg : Message)
    (u : User) (h1 : msg.sourceUser = some u) (h2 : u.server = false) :
    resolveSubject ct f msg = some u := by
  unfold resolveSubject
  rw [h1]
  simp [h2]

theorem c4_precedence_witness :
    c4msg.sourceUser = some bobUser ∧ bobUser.server = false ∧
    resolveSubject ct321 nickDir c4msg = some bobUser :=
  ⟨rfl, rfl, c4_precedence ct321 nickDir c4msg bobUser rfl rfl⟩

/-- C5: with `commandIndex["321"] = 1` and no user source, a `321` message
with params `["Alice", "Bob", "extra"]` resolves to the connected user
named `Bob`; and whenever the parameter list is no longer than the
effective position, resolution returns no subject. -/
theorem c5_special (ct : CustomTags) (f : List Char → Option User) (msg : Message)
    (e : Nat) (h1 : effectiveIndex ct msg.command = some e)
    (h2 : msg.params.length ≤ e) :
    resolveSubject ct321 nickDir c5msg = some bobUser ∧
    UserFromMsg ct f msg = none := by
  refine ⟨by decide, ?_⟩
  unfold UserFromMsg
  rw [h1]
  simp [h2]

theorem c5_special_witness :
    effectiveIndex ct321 c5shortMsg.command = some 1 ∧
    c5shortMsg.params.length ≤ 1 ∧
    (resolveSubject ct321 nickDir c5msg = some bobUser ∧
      UserFromMsg ct321 nickDir c5shortMsg = none) :=
  ⟨by decide, by decide, c5_special ct321 nickDir c5shortMsg 1 (by decide) (by decide)⟩

/-- C6: observing a WHO exchange records the negotiated nick-field
position (or clears it); a `354` message in a state whose recorded
position is `p` resolves its subject from the parameter at `p + 1`; and
in a state with no recorded position (the constructor's initial state, or
after an observation without a nick field) a `354` message never
resolves a subject. -/
theorem c6_whox (ct ct' ct0 : CustomTags) (f f' : List Char → Option User)
    (msg msg' : Message) (p idx : Nat)
    (hA1 : lookupKV ct.specialmsgs msg.command = some idx)
    (hA2 : ciEq msg.command ['3', '5', '4'] = true)
    (hA3 : ct.whox_index = (p : Int))
    (hA4 : p + 1 < msg.params.length)
    (hB1 : ciEq msg'.command ['3', '5', '4'] = true)
    (hB2 : ct'.whox_index = initialWhoxIndex) :
    (OnWhoLine (some p) ct0).whox_index = (p : Int) ∧
    (OnWhoLine none ct0).whox_index = initialWhoxIndex ∧
    UserFromMsg ct f msg = f (msg.params.getD (p + 1) []) ∧
    UserFromMsg ct' f' msg' = none := by
  refine ⟨rfl, rfl, ?_, ?_⟩
  · unfold UserFromMsg effectiveIndex
    rw [hA1]
    simp only [hA2, if_true, hA3]
    rw [if_neg (by omega)]
    have ht : ((p : Int) + 1).toNat = p + 1 := by omega
    rw [ht]
    simp only []
    rw [if_neg (by omega)]
  · unfold UserFromMsg effectiveIndex
    cases hx : lookupKV ct'.specialmsgs msg'.command with
    | none => rfl
    | some i =>
        simp only [hB1, if_true, hB2]
        rw [if_pos (show initialWhoxIndex = -1 from rfl)]

theorem c6_whox_witness :
    UserFromMsg ct354A nickDir c6msg = some bobUser ∧
    UserFromMsg ct354B nickDir c6msg = none := by
  have h := c6_whox ct354A ct354B ct354A nickDir nickDir c6msg c6msg 2 0
    (by decide) (by decide) (by decide) (by decide) (by decide) (by decide)
  exact ⟨by rw [h.2.2.1]; decide, h.2.2.2⟩

/-- C7: the recipient filter passes a tag exactly when the tag's owner is
this provider and the connection has negotiated the message-tags
capability; a foreign-owned tag is never passed, capability or not. -/
theorem c7_filter (o : Bool) (capGet : User → Bool) (u : User) :
    (shouldSend o capGet u = true ↔ (o = true ∧ capGet u = true)) ∧
    shouldSend false capGet u = false := by
  constructor
  · simp [shouldSend, ShouldSendTag]
  · simp [shouldSend]

/-- C8 counterexample: in the end-to-end scenario (Bob's store
`{"level": "5", "clan": "red"}`, vendor `acme`, server-sourced `321` with
`commandIndex["321"] = 1` and params `["Alice", "Bob"]`) the attached
tags are not `acme/level=5` followed by `acme/clan=red`: the store
iterates in case-insensitive key order, which puts `clan` first. -/
theorem c8_counterexample :
    OnPopulateTags ct321 nickDir extBob c8msg ≠
      [(['a', 'c', 'm', 'e', '/', 'l', 'e', 'v', 'e', 'l'], ['5']),
       (['a', 'c', 'm', 'e', '/', 'c', 'l', 'a', 'n'], ['r', 'e', 'd'])] := by
  decide

/-- C8 (amended): in the same scenario the populated tags are exactly
`acme/clan=red` and `acme/level=5`, in that order (`acme/clan` first,
following the store's case-insensitive sorted iteration order). -/
theorem c8_population :
    bobStore = [(['c', 'l', 'a', 'n'], ['r', 'e', 'd']),
                (['l', 'e', 'v', 'e', 'l'], ['5'])] ∧
    OnPopulateTags ct321 nickDir extBob c8msg =
      [(['a', 'c', 'm', 'e', '/', 'c', 'l', 'a', 'n'], ['r', 'e', 'd']),
       (['a', 'c', 'm', 'e', '/', 'l', 'e', 'v', 'e', 'l'], ['5'])] :=
  ⟨by decide, by decide⟩

/-- C9: if any configuration entry lacks a non-empty command, the whole
reload is rejected: the provider keeps its previous special-message table
and vendor unchanged, and no partially-built table is installed. -/
theorem c9_reload (entries : List ConfigEntry) (v : List Char) (ct : CustomTags)
    (e : ConfigEntry) (he : e ∈ entries) (hcmd : e.command = []) :
    ReadConfig entries v ct = ct := by
  unfold ReadConfig
  rw [buildSpecialMsgs_none entries [] e he hcmd]

theorem c9_reload_witness :
    badEntry ∈ [goodEntry, badEntry] ∧ badEntry.command = [] ∧
    ReadConfig [goodEntry, badEntry] ['v'] ct321 = ct321 :=
  ⟨by decide, rfl, c9_reload [goodEntry, badEntry] ['v'] ct321 badEntry (by decide) rfl⟩

/-- C10: decoding any even-token payload succeeds; a name looks up to the
value of the first pair whose name is equivalent ignoring ASCII case
(later duplicates are dropped by `flat_map::insert`), and the decoded
store's names are pairwise distinct up to case. -/
theorem c10_dup (value : List Char) (n : List Char)
    (h : (tokenize value).length % 2 = 0) :
    FromNetworkPure value = some (buildStore (toPairs (tokenize value))) ∧
    lookupKV (buildStore (toPairs (tokenize value))) n =
      ((toPairs (tokenize value)).find? (fun p => ciEq p.1 n)).map Prod.snd ∧
    (buildStore (toPairs (tokenize value))).Pairwise (fun p q => ciEq p.1 q.1 = false) := by
  refine ⟨?_, ?_, ?_⟩
  · unfold FromNetworkPure buildStore
    exact decodeTokens_even (tokenize value) [] h
  · unfold buildStore
    rw [lookupKV_foldl_insKV (toPairs (tokenize value)) [] n List.Pairwise.nil]
    simp [lookupKV, orOpt]
  · have hs : SortedCI (buildStore (toPairs (tokenize value))) :=
      foldl_insKV_sorted (toPairs (tokenize value)) [] List.Pairwise.nil
    exact hs.imp (fun hlt => by simp [ciEq, hlt])

theorem c10_dup_witness :
    (tokenize dupPayload).length % 2 = 0 ∧
    FromNetworkPure dupPayload = some [(['F', 'o', 'o'], ['1'])] ∧
    lookupKV (buildStore (toPairs (tokenize dupPayload))) ['f', 'o', 'o'] = some ['1'] := by
  have h := c10_dup dupPayload ['f', 'o', 'o'] (by decide)
  exact ⟨by decide, by rw [h.1]; decide, by rw [h.2.1]; decide⟩

end CustomTagsMod
